import Mathlib

/-!
Verification development for the chunkflow patch-based block inference engine
and its queue helpers.

The inference-engine core (grid planner, bump weight generator, overlap-add
accumulator, inference engine orchestrator) is modelled from the written
specification, since only its tests and command-line callers ship in the
source tree at hand.  The SQS queue batch sender and the task-fetch generator
are embedded directly from the source files `chunkflow/sqs_queue.py` and
`chunkflow/flow/flow.py`.
-/

namespace Chunkflow

/-- 3-vector of natural coordinates, axis order `(z, y, x)`. -/
abbrev Vec3 := Nat × Nat × Nat

/-- Modelled from the spec: error taxonomy of §7.  The engine source is not in
the source tree (only its tests and callers are); only the two error kinds the
claims mention are modelled: bad static configuration and coverage failure. -/
inductive ChunkflowError where
  | config
  | coverage
deriving DecidableEq

/-- Modelled from the spec §4.3 (size-driven mode): patch count per axis is
`ceil((input_size − overlap) / (output_patch_size − overlap))` clamped to at
least 1.  `s` is the input size, `ps` the output patch size, `ov` the
output patch overlap, all on one axis. -/
def sizeDrivenPatchNum (s ps ov : Nat) : Nat :=
  max 1 (((s - ov) + (ps - ov) - 1) / (ps - ov))

/-- Modelled from the spec §4.3 (size-driven mode): placements start at
multiples of the stride `ps − ov`, and the final placement per axis is
pulled back (its start reduced) so that `start + ps ≤ s`. -/
def sizeDrivenStarts (s ps ov : Nat) : List Nat :=
  (List.range (sizeDrivenPatchNum s ps ov)).map fun i =>
    if i + 1 = sizeDrivenPatchNum s ps ov then min (i * (ps - ov)) (s - ps)
    else i * (ps - ov)

/-- Modelled from the spec §4.3 (explicit-count mode): stride is
`(input_size − output_patch_size) / (patch_num − 1)` when `patch_num > 1`. -/
def explicitStride (s ps n : Nat) : Nat := (s - ps) / (n - 1)

/-- Modelled from the spec §4.3 (explicit-count mode): `n` placements at
multiples of the explicit stride; a single patch (`n = 1`) is centered. -/
def explicitStarts (s ps n : Nat) : List Nat :=
  if n = 1 then [(s - ps) / 2]
  else (List.range n).map fun i => i * explicitStride s ps n

/-- Modelled from the spec §4.3: one axis of the grid planner.  Size-driven
mode when no patch count is supplied; explicit-count mode otherwise.  Fails
with `ConfigError` on a non-positive patch count, and when the patch is larger
than the available span on an axis with more than one patch (the "negative
stride" case). -/
def planAxis (s ps ov : Nat) : Option Nat → Except ChunkflowError (List Nat)
  | none =>
      if ov < ps then .ok (sizeDrivenStarts s ps ov) else .error .config
  | some n =>
      if n = 0 then .error .config
      else if 1 < n ∧ s < ps then .error .config
      else .ok (explicitStarts s ps n)

/-- Axis-major (z, then y, then x) product of per-axis start lists, giving the
ordered sequence of 3-D placement start offsets. -/
def prod3 (zs ys xs : List Nat) : List Vec3 :=
  zs.flatMap fun z => ys.flatMap fun y => xs.map fun x => (z, y, x)

/-- Modelled from the spec §4.3: the invariant verified after planning — the
union of all placements' covered ranges equals the full input size on every
axis.  Per axis this is: every coordinate below the input size is covered by
some placement, and every placement lies within the input extent. -/
def planUnionOkb (pls : List Vec3) (ps sz : Vec3) : Bool :=
  (((List.range sz.1).all fun x =>
      pls.any fun pl => decide (pl.1 ≤ x) && decide (x < pl.1 + ps.1)) &&
    pls.all fun pl => decide (pl.1 + ps.1 ≤ sz.1)) &&
  (((List.range sz.2.1).all fun x =>
      pls.any fun pl => decide (pl.2.1 ≤ x) && decide (x < pl.2.1 + ps.2.1)) &&
    pls.all fun pl => decide (pl.2.1 + ps.2.1 ≤ sz.2.1)) &&
  (((List.range sz.2.2).all fun x =>
      pls.any fun pl => decide (pl.2.2 ≤ x) && decide (x < pl.2.2 + ps.2.2)) &&
    pls.all fun pl => decide (pl.2.2 + ps.2.2 ≤ sz.2.2))

/-- Static configuration of the grid planner: input size, output patch size,
output patch overlap, and the optional explicit per-axis patch count. -/
structure PlanConfig where
  size : Vec3
  patchSize : Vec3
  overlap : Vec3
  patchNum : Option Vec3

/-- Modelled from the spec §4.3: the grid planner.  Plans each axis, forms the
axis-major product of the per-axis starts, then verifies the coverage
invariant; a violation is a fatal `CoverageError`, never silently dropped. -/
def plan (cfg : PlanConfig) : Except ChunkflowError (List Vec3) := do
  let zs ← planAxis cfg.size.1 cfg.patchSize.1 cfg.overlap.1 (cfg.patchNum.map fun v => v.1)
  let ys ← planAxis cfg.size.2.1 cfg.patchSize.2.1 cfg.overlap.2.1 (cfg.patchNum.map fun v => v.2.1)
  let xs ← planAxis cfg.size.2.2 cfg.patchSize.2.2 cfg.overlap.2.2 (cfg.patchNum.map fun v => v.2.2)
  let pls := prod3 zs ys xs
  if planUnionOkb pls cfg.patchSize cfg.size then pure pls else .error .coverage

/-- Validity of one axis of a patch geometry.  Size-driven mode needs
`overlap < patch ≤ size`; explicit-count mode needs a positive count, a patch
fitting the input, a single patch filling the axis exactly, and for several
patches an evenly dividing, chainable stride. -/
def ValidAxis (s ps ov : Nat) : Option Nat → Prop
  | none => ov < ps ∧ ps ≤ s
  | some n =>
      ps ≤ s ∧ 0 < n ∧ (n = 1 → ps = s) ∧
        (1 < n → (n - 1) ∣ (s - ps) ∧ (s - ps) / (n - 1) ≤ ps)

instance (s ps ov : Nat) : (pn : Option Nat) → Decidable (ValidAxis s ps ov pn)
  | none => decidable_of_iff (ov < ps ∧ ps ≤ s) Iff.rfl
  | some n =>
      decidable_of_iff
        (ps ≤ s ∧ 0 < n ∧ (n = 1 → ps = s) ∧
          (1 < n → (n - 1) ∣ (s - ps) ∧ (s - ps) / (n - 1) ≤ ps)) Iff.rfl

/-- Validity of a full patch geometry: every axis is valid. -/
def ValidConfig (cfg : PlanConfig) : Prop :=
  ValidAxis cfg.size.1 cfg.patchSize.1 cfg.overlap.1 (cfg.patchNum.map fun v => v.1) ∧
  ValidAxis cfg.size.2.1 cfg.patchSize.2.1 cfg.overlap.2.1 (cfg.patchNum.map fun v => v.2.1) ∧
  ValidAxis cfg.size.2.2 cfg.patchSize.2.2 cfg.overlap.2.2 (cfg.patchNum.map fun v => v.2.2)

instance (cfg : PlanConfig) : Decidable (ValidConfig cfg) := by
  unfold ValidConfig
  infer_instance

/-- Well-formedness facts of one planned axis: placements exist, stay within
the input extent, and jointly cover it. -/
def AxisOk (s ps : Nat) (starts : List Nat) : Prop :=
  starts ≠ [] ∧ (∀ st ∈ starts, st + ps ≤ s) ∧
    ∀ x, x < s → ∃ st ∈ starts, st ≤ x ∧ x < st + ps

/-- The per-axis union property of the planned 3-D placement list, stated as
the equality of the union of covered ranges with the full input extent. -/
def UnionEq (pls : List Vec3) (sz ps : Vec3) : Prop :=
  (∀ x, x < sz.1 ↔ ∃ pl ∈ pls, pl.1 ≤ x ∧ x < pl.1 + ps.1) ∧
  (∀ x, x < sz.2.1 ↔ ∃ pl ∈ pls, pl.2.1 ≤ x ∧ x < pl.2.1 + ps.2.1) ∧
  (∀ x, x < sz.2.2 ↔ ∃ pl ∈ pls, pl.2.2 ≤ x ∧ x < pl.2.2 + ps.2.2)

/-! ## Bump weight generator -/

/-- Modelled from the spec §4.2: the unnormalized 1-D weight curve sample at
index `i` of an axis of length `n`.  A smooth (polynomial) bump, strictly
positive inside the axis extent and approaching zero at the two ends without
ever reaching it: `(2i+1)(2(n−i)−1)`, the value of the parabola
`t ↦ (2n)² · t(1−t)` at the cell midpoint `t = (i + 1/2)/n`. -/
def bumpRaw (n i : Nat) : Nat := (2 * i + 1) * (2 * (n - i) - 1)

/-- The maximum sample of the unnormalized curve, used to normalize the
curve so that its maximum is 1. -/
def bumpMax (n : Nat) : Nat := ((List.range n).map (bumpRaw n)).foldl max 0

/-- Modelled from the spec §4.2: the normalized 1-D weight curve per axis,
maximum normalized to 1. -/
def bumpCurve (n i : Nat) : ℚ := (bumpRaw n i : ℚ) / (bumpMax n : ℚ)

/-- Modelled from the spec §4.2: the 3-D bump weight field of a patch shape
`ps`, formed as the outer product of the three 1-D curves. -/
def bumpField (ps p : Vec3) : ℚ :=
  bumpCurve ps.1 p.1 * bumpCurve ps.2.1 p.2.1 * bumpCurve ps.2.2 p.2.2

/-! ## Overlap-add accumulator -/

/-- Modelled from the spec §3: the accumulation buffers — a per-channel
weighted sum and a weight sum, both over the output-chunk coordinate space. -/
structure Buffers where
  dataAcc : Nat → Vec3 → ℚ
  weightAcc : Vec3 → ℚ

/-- Zero-filled buffers, created at engine-call start. -/
def Buffers.init : Buffers := ⟨fun _ _ => 0, fun _ => 0⟩

/-- Whether position `p` lies in the patch of shape `ps` placed at `st`. -/
def coversb (st ps p : Vec3) : Bool :=
  decide (st.1 ≤ p.1) && decide (p.1 < st.1 + ps.1) &&
  decide (st.2.1 ≤ p.2.1) && decide (p.2.1 < st.2.1 + ps.2.1) &&
  decide (st.2.2 ≤ p.2.2) && decide (p.2.2 < st.2.2 + ps.2.2)

/-- Componentwise truncated subtraction, giving patch-local coordinates. -/
def sub3 (p st : Vec3) : Vec3 := (p.1 - st.1, p.2.1 - st.2.1, p.2.2 - st.2.2)

/-- Componentwise addition. -/
def add3 (a b : Vec3) : Vec3 := (a.1 + b.1, a.2.1 + b.2.1, a.2.2 + b.2.2)

/-- Modelled from the spec §4.6: `deposit` multiplies the output patch
element-wise by the bump weight field and adds it into the weighted sum at the
placement location, simultaneously adding the weight field into the weight
sum.  `patch` maps channel and patch-local position to the transform output. -/
def deposit (ps st : Vec3) (patch : Nat → Vec3 → ℚ) (b : Buffers) : Buffers where
  dataAcc := fun c p =>
    b.dataAcc c p +
      if coversb st ps p then bumpField ps (sub3 p st) * patch c (sub3 p st) else 0
  weightAcc := fun p =>
    b.weightAcc p + if coversb st ps p then bumpField ps (sub3 p st) else 0

/-- The weight mass that a list of placements deposits at position `p`. -/
def wsumList (ps : Vec3) (pls : List Vec3) (p : Vec3) : ℚ :=
  (pls.map fun st => if coversb st ps p then bumpField ps (sub3 p st) else 0).sum

/-! ## Transform interface and batch scheduler -/

/-- Modelled from the spec §4.4 (Identity variant): the output patch of the
placement at `st` replicates, on every output channel, the input volume values
over the patch extent. -/
def tfIdentity (v : Vec3 → ℚ) : Vec3 → Nat → Vec3 → ℚ :=
  fun st _ lp => v (add3 st lp)

/-- Modelled from the spec §4.5: the batch scheduler groups the ordered
placements into consecutive batches of at most `n` (the final batch may be
smaller), preserving submission order strictly. -/
def chunksOf (n : Nat) : List α → List (List α)
  | [] => []
  | a :: l => (a :: l.take (n - 1)) :: chunksOf n (l.drop (n - 1))
termination_by l => l.length
decreasing_by simp [List.length_drop]; omega

/-- Deposit the transform outputs of all placements, in order. -/
def depositAll (ps : Vec3) (tf : Vec3 → Nat → Vec3 → ℚ) (pls : List Vec3)
    (b : Buffers) : Buffers :=
  pls.foldl (fun b st => deposit ps st (tf st) b) b

/-- Modelled from the spec §4.5: batched execution — the scheduler cuts the
placement stream into batches of at most `batchSize` and the accumulator
deposits one batch at a time. -/
def depositBatched (batchSize : Nat) (ps : Vec3) (tf : Vec3 → Nat → Vec3 → ℚ)
    (pls : List Vec3) (b : Buffers) : Buffers :=
  (chunksOf batchSize pls).foldl (fun b batch => depositAll ps tf batch b) b

/-! ## Finalize and the engine -/

/-- Modelled from the spec §4.6: the small epsilon guard used when dividing
the weighted sum by the weight sum. -/
def epsilon : ℚ := 1 / 1000000000000000

/-- Whether the weight sum is non-zero at every position of the output
extent. -/
def allWeightedb (w : Vec3 → ℚ) (sz : Vec3) : Bool :=
  (List.range sz.1).all fun z =>
    (List.range sz.2.1).all fun y =>
      (List.range sz.2.2).all fun x => decide (w (z, y, x) ≠ 0)

/-- The output volume: channel count, spatial shape, and samples. -/
structure OutVolume where
  channels : Nat
  size : Vec3
  data : Nat → Vec3 → ℚ

/-- Modelled from the spec §4.6: `finalize` computes
`output = weighted_sum / max(weight_sum, epsilon)`, with any position of the
output extent where the weight sum is exactly zero raising `CoverageError`
rather than silently returning zero. -/
def finalize (channels : Nat) (sz : Vec3) (b : Buffers) :
    Except ChunkflowError OutVolume :=
  if allWeightedb b.weightAcc sz then
    .ok ⟨channels, sz, fun c p => b.dataAcc c p / max (b.weightAcc p) epsilon⟩
  else .error .coverage

/-- Modelled from the spec §4.7 (tiled mode): plan, extract/transform/deposit
batch by batch, then finalize. -/
def runTiled (batchSize : Nat) (cfg : PlanConfig) (channels : Nat)
    (tf : Vec3 → Nat → Vec3 → ℚ) : Except ChunkflowError OutVolume := do
  let pls ← plan cfg
  finalize channels cfg.size (depositBatched batchSize cfg.patchSize tf pls .init)

/-- Modelled from the spec §4.7 (whole-chunk shortcut): deposit with a uniform
weight of 1 instead of the bump field. -/
def depositUniform (ps st : Vec3) (patch : Nat → Vec3 → ℚ) (b : Buffers) : Buffers where
  dataAcc := fun c p =>
    b.dataAcc c p + if coversb st ps p then patch c (sub3 p st) else 0
  weightAcc := fun p => b.weightAcc p + if coversb st ps p then 1 else 0

/-- The buffers accumulated by the whole-chunk shortcut: the grid planner is
bypassed, the whole input is the single placement at the origin, and the batch
scheduler is still used with batch size 1. -/
def wholeChunkBuffers (sz : Vec3) (tf : Vec3 → Nat → Vec3 → ℚ) : Buffers :=
  (chunksOf 1 [((0, 0, 0) : Vec3)]).foldl
    (fun b batch => batch.foldl (fun b st => depositUniform sz st (tf st) b) b)
    Buffers.init

/-- Modelled from the spec §4.7 (whole-chunk shortcut): the engine in
"mask output chunk" mode — one whole-input patch, uniform weight 1,
normalization a division by `max(1, epsilon) = 1`. -/
def runWholeChunk (sz : Vec3) (channels : Nat)
    (tf : Vec3 → Nat → Vec3 → ℚ) : OutVolume :=
  ⟨channels, sz, fun c p =>
    (wholeChunkBuffers sz tf).dataAcc c p /
      max ((wholeChunkBuffers sz tf).weightAcc p) epsilon⟩

/-- Rescaling of an 8-bit input volume to `[0, 1]`, as the engine does before
running the transform. -/
def rescale255 (inp : Vec3 → Nat) : Vec3 → ℚ := fun p => (inp p : ℚ) / 255

/-- The §8 concrete scenario configuration: input `(18,224,224)`, output patch
`(10,128,128)`, overlap `(2,32,32)`, size-driven mode. -/
def scenarioConfig : PlanConfig :=
  ⟨(18, 224, 224), (10, 128, 128), (2, 32, 32), none⟩

/-! ## SQS queue batch sender (embedded from `chunkflow/sqs_queue.py`) -/

/-- An SQS batch entry as built by `send_message_list`: the message string is
used both as the entry id and as the message body. -/
structure SQSEntry where
  entryId : String
  messageBody : String
deriving DecidableEq

/-- `entry = {'Id': message, 'MessageBody': message}`. -/
def toEntry (m : String) : SQSEntry := ⟨m, m⟩

/-- State of `send_message_list`: the batches passed to `send_message_batch`
so far, and the pending entry list `task_entries`. -/
structure SQSSendState where
  sentBatches : List (List SQSEntry)
  pending : List SQSEntry
deriving DecidableEq

/-- One loop iteration of `send_message_list`: append the entry, and flush the
pending list as a batch once it reaches 10 entries. -/
def sendStep (st : SQSSendState) (m : String) : SQSSendState :=
  let pending := st.pending ++ [toEntry m]
  if pending.length = 10 then ⟨st.sentBatches ++ [pending], []⟩
  else ⟨st.sentBatches, pending⟩

/-- `SQSQueue.send_message_list`: fold the loop over the message list, then
flush any remaining entries smaller than a full batch. -/
def sendMessageList (msgs : List String) : SQSSendState :=
  let st := msgs.foldl sendStep ⟨[], []⟩
  if st.pending.isEmpty then st else ⟨st.sentBatches ++ [st.pending], []⟩

/-! ## Task fetching (embedded from `chunkflow/flow/flow.py`, `fetch_task`) -/

/-- A task yielded by `fetch_task`: it carries the queue, the task handle, and
the bounding box parsed from the fetched message. -/
structure FetchedTask (Q B : Type) where
  taskQueue : Q
  handle : String
  bboxStr : String
  bbox : B
deriving DecidableEq

/-- `fetch_task`: loop `while num != 0`, fetch `(task_handle, bbox_str)` from
the queue, return when the handle is `None`, otherwise decrement `num` and
yield the task.  The queue is modelled as the finite trace of its responses;
`parse` stands for `Bbox.from_filename`. -/
def fetchTask (q : Q) (parse : String → B) :
    Int → List (Option (String × String)) → List (FetchedTask Q B)
  | _, [] => []
  | num, r :: rs =>
    if num = 0 then []
    else
      match r with
      | none => []
      | some hs => ⟨q, hs.1, hs.2, parse hs.2⟩ :: fetchTask q parse (num - 1) rs

/-- The maximal run of `some` responses at the head of a queue trace: the
tasks available before the queue first reports itself exhausted. -/
def leadingSomes : List (Option α) → List α
  | [] => []
  | none :: _ => []
  | some a :: rs => a :: leadingSomes rs

/-! ## Lemmas about the SQS batch sender -/

theorem sendStep_spec (st : SQSSendState) (m : String)
    (hp : st.pending.length < 10) (hb : ∀ b ∈ st.sentBatches, b.length = 10) :
    (sendStep st m).sentBatches.flatten ++ (sendStep st m).pending
        = st.sentBatches.flatten ++ (st.pending ++ [toEntry m]) ∧
      (sendStep st m).pending.length < 10 ∧
      ∀ b ∈ (sendStep st m).sentBatches, b.length = 10 := by
  by_cases h : (st.pending ++ [toEntry m]).length = 10
  · have hs : sendStep st m = ⟨st.sentBatches ++ [st.pending ++ [toEntry m]], []⟩ := by
      simp only [sendStep]
      rw [if_pos h]
    rw [hs]
    refine ⟨by simp, by simp, ?_⟩
    intro b hbmem
    simp only [List.mem_append, List.mem_singleton] at hbmem
    rcases hbmem with hbmem | hbmem
    · exact hb b hbmem
    · rw [hbmem]; exact h
  · have hs : sendStep st m = ⟨st.sentBatches, st.pending ++ [toEntry m]⟩ := by
      simp only [sendStep]
      rw [if_neg h]
    rw [hs]
    refine ⟨rfl, ?_, hb⟩
    simp only [List.length_append] at h ⊢
    simp at h ⊢
    omega

theorem sendFold_spec (msgs : List String) : ∀ (st : SQSSendState),
    st.pending.length < 10 → (∀ b ∈ st.sentBatches, b.length = 10) →
    ((msgs.foldl sendStep st).sentBatches.flatten ++ (msgs.foldl sendStep st).pending
        = st.sentBatches.flatten ++ st.pending ++ msgs.map toEntry) ∧
      (msgs.foldl sendStep st).pending.length < 10 ∧
      ∀ b ∈ (msgs.foldl sendStep st).sentBatches, b.length = 10 := by
  induction msgs with
  | nil => intro st hp hb; simpa using ⟨hp, hb⟩
  | cons m ms ih =>
    intro st hp hb
    obtain ⟨h1, h2, h3⟩ := sendStep_spec st m hp hb
    obtain ⟨g1, g2, g3⟩ := ih (sendStep st m) h2 h3
    refine ⟨?_, g2, g3⟩
    simp only [List.foldl_cons]
    rw [g1, h1]
    simp

/-! ## Lemmas about the task fetcher -/

theorem fetchTask_zero {Q B : Type} (q : Q) (parse : String → B)
    (rs : List (Option (String × String))) : fetchTask q parse 0 rs = [] := by
  cases rs with
  | nil => rfl
  | cons r rs => simp [fetchTask]

theorem fetchTask_pos {Q B : Type} (q : Q) (parse : String → B) :
    ∀ (rs : List (Option (String × String))) (num : Int), 0 < num →
    fetchTask q parse num rs =
      ((leadingSomes rs).take num.toNat).map fun hs => ⟨q, hs.1, hs.2, parse hs.2⟩ := by
  intro rs
  induction rs with
  | nil => intro num hnum; simp [fetchTask, leadingSomes]
  | cons r rs ih =>
    intro num hnum
    have h0 : num ≠ 0 := by omega
    cases r with
    | none => simp [fetchTask, leadingSomes, h0]
    | some hs =>
      have htn : num.toNat = (num - 1).toNat + 1 := by omega
      simp only [fetchTask, h0, if_false, leadingSomes, htn, List.take_succ_cons,
        List.map_cons]
      by_cases h1 : num = 1
      · subst h1
        simp [fetchTask_zero]
      · rw [ih (num - 1) (by omega)]

theorem fetchTask_neg {Q B : Type} (q : Q) (parse : String → B) :
    ∀ (rs : List (Option (String × String))) (num : Int), num < 0 →
    fetchTask q parse num rs =
      (leadingSomes rs).map fun hs => ⟨q, hs.1, hs.2, parse hs.2⟩ := by
  intro rs
  induction rs with
  | nil => intro num hnum; simp [fetchTask, leadingSomes]
  | cons r rs ih =>
    intro num hnum
    have h0 : num ≠ 0 := by omega
    cases r with
    | none => simp [fetchTask, leadingSomes, h0]
    | some hs =>
      simp only [fetchTask, h0, if_false, leadingSomes, List.map_cons]
      rw [ih (num - 1) (by omega)]

theorem fetchTask_mem {Q B : Type} (q : Q) (parse : String → B) :
    ∀ (rs : List (Option (String × String))) (num : Int),
      ∀ t ∈ fetchTask q parse num rs,
        t.taskQueue = q ∧ t.bbox = parse t.bboxStr ∧ some (t.handle, t.bboxStr) ∈ rs := by
  intro rs
  induction rs with
  | nil => intro num t ht; simp [fetchTask] at ht
  | cons r rs ih =>
    intro num t ht
    by_cases h0 : num = 0
    · subst h0; simp [fetchTask] at ht
    · cases r with
      | none => simp [fetchTask, h0] at ht
      | some hs =>
        simp only [fetchTask, h0, if_false, List.mem_cons] at ht
        rcases ht with ht | ht
        · subst ht; simp
        · obtain ⟨g1, g2, g3⟩ := ih (num - 1) t ht
          exact ⟨g1, g2, by simp [g3]⟩

/-! ## Arithmetic facts about the ceiling division used by the planner -/

theorem ceil_div_bounds (m q : Nat) (hq : 0 < q) (hm : 0 < m) :
    1 ≤ (m + q - 1) / q ∧ m ≤ q * ((m + q - 1) / q) ∧
      q * ((m + q - 1) / q - 1) < m := by
  have hdm := Nat.div_add_mod (m + q - 1) q
  have hr : (m + q - 1) % q < q := Nat.mod_lt _ hq
  have hn1 : 1 ≤ (m + q - 1) / q := by
    rw [Nat.le_div_iff_mul_le hq]
    omega
  refine ⟨hn1, ?_, ?_⟩
  all_goals {
    set n := (m + q - 1) / q with hn
    set r := (m + q - 1) % q with hrr
    have hAB : q * n = q * (n - 1) + q := by
      have h2 : n - 1 + 1 = n := Nat.sub_add_cancel hn1
      calc q * n = q * (n - 1 + 1) := by rw [h2]
        _ = q * (n - 1) + q := by ring
    set A := q * n with hA
    set B := q * (n - 1) with hB
    omega
  }

/-! ## Per-axis planner lemmas -/

theorem getD_map_range (n i : Nat) (f : Nat → Nat) (hi : i < n) :
    ((List.range n).map f).getD i 0 = f i := by
  rw [List.getD_eq_getElem?_getD, List.getElem?_map, List.getElem?_range hi]
  rfl

theorem sizeDrivenPatchNum_eq (s ps ov : Nat) (hov : ov < ps) (hps : ps ≤ s) :
    sizeDrivenPatchNum s ps ov = (s - ov + (ps - ov) - 1) / (ps - ov) := by
  have hstr : 0 < ps - ov := by omega
  have hm : 0 < s - ov := by omega
  obtain ⟨h1, _, _⟩ := ceil_div_bounds (s - ov) (ps - ov) hstr hm
  unfold sizeDrivenPatchNum
  omega

theorem sizeDriven_key_bounds (s ps ov : Nat) (hov : ov < ps) (hps : ps ≤ s) :
    1 ≤ sizeDrivenPatchNum s ps ov ∧
      s - ov ≤ (ps - ov) * sizeDrivenPatchNum s ps ov ∧
      (ps - ov) * (sizeDrivenPatchNum s ps ov - 1) < s - ov := by
  have hstr : 0 < ps - ov := by omega
  have hm : 0 < s - ov := by omega
  obtain ⟨h1, h2, h3⟩ := ceil_div_bounds (s - ov) (ps - ov) hstr hm
  rw [sizeDrivenPatchNum_eq s ps ov hov hps]
  exact ⟨h1, h2, h3⟩

theorem sizeDriven_pullback (s ps ov : Nat) (hov : ov < ps) (hps : ps ≤ s) :
    s - ps ≤ (sizeDrivenPatchNum s ps ov - 1) * (ps - ov) := by
  obtain ⟨h1, h2, _⟩ := sizeDriven_key_bounds s ps ov hov hps
  have hAB : (ps - ov) * sizeDrivenPatchNum s ps ov
      = (ps - ov) * (sizeDrivenPatchNum s ps ov - 1) + (ps - ov) := by
    have h2a : sizeDrivenPatchNum s ps ov - 1 + 1 = sizeDrivenPatchNum s ps ov :=
      Nat.sub_add_cancel h1
    calc (ps - ov) * sizeDrivenPatchNum s ps ov
        = (ps - ov) * (sizeDrivenPatchNum s ps ov - 1 + 1) := by rw [h2a]
      _ = (ps - ov) * (sizeDrivenPatchNum s ps ov - 1) + (ps - ov) := by ring
  rw [Nat.mul_comm]
  generalize hX : (ps - ov) * sizeDrivenPatchNum s ps ov = X at h2 hAB
  generalize hY : (ps - ov) * (sizeDrivenPatchNum s ps ov - 1) = Y at hAB ⊢
  omega

theorem sizeDriven_within (s ps ov : Nat) (hov : ov < ps) (hps : ps ≤ s) :
    ∀ st ∈ sizeDrivenStarts s ps ov, st + ps ≤ s := by
  obtain ⟨h1, h2, h3⟩ := sizeDriven_key_bounds s ps ov hov hps
  intro st hst
  simp only [sizeDrivenStarts, List.mem_map, List.mem_range] at hst
  obtain ⟨i, hi, hval⟩ := hst
  by_cases hlast : i + 1 = sizeDrivenPatchNum s ps ov
  · rw [if_pos hlast] at hval
    have : st ≤ s - ps := hval ▸ Nat.min_le_right _ _
    omega
  · rw [if_neg hlast] at hval
    have hi2 : i + 1 ≤ sizeDrivenPatchNum s ps ov - 1 := by omega
    have hle : (i + 1) * (ps - ov) ≤ (sizeDrivenPatchNum s ps ov - 1) * (ps - ov) :=
      Nat.mul_le_mul_right _ hi2
    rw [Nat.mul_comm (sizeDrivenPatchNum s ps ov - 1)] at hle
    have hmul : i * (ps - ov) + (ps - ov) = (i + 1) * (ps - ov) := by ring
    subst hval
    generalize hX : i * (ps - ov) = X at hmul ⊢
    generalize hY : (i + 1) * (ps - ov) = Y at hmul hle
    generalize hZ : (ps - ov) * (sizeDrivenPatchNum s ps ov - 1) = Z at hle h3
    omega

theorem sizeDriven_covers (s ps ov : Nat) (hov : ov < ps) (hps : ps ≤ s) :
    ∀ x, x < s → ∃ st ∈ sizeDrivenStarts s ps ov, st ≤ x ∧ x < st + ps := by
  obtain ⟨h1, h2, h3⟩ := sizeDriven_key_bounds s ps ov hov hps
  have hpull := sizeDriven_pullback s ps ov hov hps
  intro x hx
  by_cases hxl : s - ps ≤ x
  · -- the pulled-back final placement covers the tail of the axis
    refine ⟨min ((sizeDrivenPatchNum s ps ov - 1) * (ps - ov)) (s - ps), ?_, ?_, ?_⟩
    · simp only [sizeDrivenStarts, List.mem_map, List.mem_range]
      refine ⟨sizeDrivenPatchNum s ps ov - 1, by omega, ?_⟩
      rw [if_pos (by omega)]
    · have := Nat.min_le_right ((sizeDrivenPatchNum s ps ov - 1) * (ps - ov)) (s - ps)
      omega
    · have hmin : min ((sizeDrivenPatchNum s ps ov - 1) * (ps - ov)) (s - ps) = s - ps :=
        Nat.min_eq_right hpull
      rw [hmin]
      omega
  · -- interior placement at index x / stride
    push_neg at hxl
    have hstr : 0 < ps - ov := by omega
    have hi : x / (ps - ov) + 1 < sizeDrivenPatchNum s ps ov := by
      have hdiv : x / (ps - ov) < sizeDrivenPatchNum s ps ov - 1 := by
        rw [Nat.div_lt_iff_lt_mul hstr]
        have := hpull
        omega
      omega
    refine ⟨x / (ps - ov) * (ps - ov), ?_, Nat.div_mul_le_self x (ps - ov), ?_⟩
    · simp only [sizeDrivenStarts, List.mem_map, List.mem_range]
      exact ⟨x / (ps - ov), by omega, by rw [if_neg (by omega)]⟩
    · have hdm := Nat.div_add_mod x (ps - ov)
      have hmod : x % (ps - ov) < ps - ov := Nat.mod_lt _ hstr
      have hcomm : (ps - ov) * (x / (ps - ov)) = x / (ps - ov) * (ps - ov) :=
        Nat.mul_comm _ _
      generalize hX : x / (ps - ov) * (ps - ov) = X at hcomm ⊢
      generalize hY : (ps - ov) * (x / (ps - ov)) = Y at hcomm hdm
      omega

theorem sizeDriven_axisOk (s ps ov : Nat) (hov : ov < ps) (hps : ps ≤ s) :
    AxisOk s ps (sizeDrivenStarts s ps ov) := by
  obtain ⟨h1, _, _⟩ := sizeDriven_key_bounds s ps ov hov hps
  refine ⟨?_, sizeDriven_within s ps ov hov hps, sizeDriven_covers s ps ov hov hps⟩
  have : (sizeDrivenStarts s ps ov).length = sizeDrivenPatchNum s ps ov := by
    simp [sizeDrivenStarts]
  intro hnil
  rw [hnil] at this
  simp at this
  omega

theorem explicitCount_axisOk (s ps n : Nat) (hn : 0 < n) (hps : ps ≤ s)
    (h1 : n = 1 → ps = s)
    (h2 : 1 < n → (n - 1) ∣ (s - ps) ∧ (s - ps) / (n - 1) ≤ ps) :
    AxisOk s ps (explicitStarts s ps n) := by
  by_cases hn1 : n = 1
  · subst hn1
    have hpse : ps = s := h1 rfl
    have hz : s - ps = 0 := by omega
    have hstarts : explicitStarts s ps 1 = [0] := by
      simp [explicitStarts, hz]
    rw [hstarts]
    refine ⟨by simp, by intro st hst; simp at hst; omega, ?_⟩
    intro x hx
    exact ⟨0, by simp, by omega, by omega⟩
  · have hlt : 1 < n := by omega
    obtain ⟨hdvd, hle⟩ := h2 hlt
    have hmul : (n - 1) * ((s - ps) / (n - 1)) = s - ps := Nat.mul_div_cancel' hdvd
    have hstarts : explicitStarts s ps n
        = (List.range n).map fun i => i * explicitStride s ps n := by
      simp [explicitStarts, hn1]
    rw [hstarts]
    refine ⟨?_, ?_, ?_⟩
    · have hlen : ((List.range n).map fun i => i * explicitStride s ps n).length = n := by
        simp
      intro hnil
      rw [hnil] at hlen
      simp at hlen
      omega
    · intro st hst
      simp only [List.mem_map, List.mem_range] at hst
      obtain ⟨i, hi, hval⟩ := hst
      have hmul2 : (n - 1) * explicitStride s ps n = s - ps := hmul
      have hmle : i * explicitStride s ps n ≤ (n - 1) * explicitStride s ps n :=
        Nat.mul_le_mul_right _ (by omega)
      subst hval
      omega
    · intro x hx
      have hmul2 : (n - 1) * explicitStride s ps n = s - ps := hmul
      by_cases hxl : s - ps ≤ x
      · refine ⟨(n - 1) * explicitStride s ps n, ?_, ?_, ?_⟩
        · simp only [List.mem_map, List.mem_range]
          exact ⟨n - 1, by omega, rfl⟩
        · omega
        · omega
      · push_neg at hxl
        have hle2 : explicitStride s ps n ≤ ps := hle
        have hq : 0 < explicitStride s ps n := by
          rcases Nat.eq_zero_or_pos (explicitStride s ps n) with hq0 | hq0
          · rw [hq0, Nat.mul_zero] at hmul2
            omega
          · exact hq0
        have hi : x / explicitStride s ps n < n := by
          have hdiv : x / explicitStride s ps n < n - 1 := by
            rw [Nat.div_lt_iff_lt_mul hq]
            omega
          omega
        refine ⟨x / explicitStride s ps n * explicitStride s ps n, ?_,
          Nat.div_mul_le_self x _, ?_⟩
        · simp only [List.mem_map, List.mem_range]
          exact ⟨x / explicitStride s ps n, hi, rfl⟩
        · have hdm := Nat.div_add_mod x (explicitStride s ps n)
          have hmod : x % explicitStride s ps n < explicitStride s ps n :=
            Nat.mod_lt _ hq
          have hcomm : explicitStride s ps n * (x / explicitStride s ps n)
              = x / explicitStride s ps n * explicitStride s ps n := Nat.mul_comm _ _
          omega

theorem planAxis_valid (s ps ov : Nat) (pn : Option Nat) (hv : ValidAxis s ps ov pn) :
    ∃ starts, planAxis s ps ov pn = .ok starts ∧ AxisOk s ps starts := by
  cases pn with
  | none =>
    obtain ⟨hov, hps⟩ := hv
    exact ⟨_, by simp [planAxis, hov], sizeDriven_axisOk s ps ov hov hps⟩
  | some n =>
    obtain ⟨hps, hn, h1, h2⟩ := hv
    have hne : ¬(n = 0) := by omega
    have hcond : ¬(1 < n ∧ s < ps) := by
      rintro ⟨hgt, hlt⟩
      omega
    refine ⟨_, ?_, explicitCount_axisOk s ps n hn hps h1 h2⟩
    simp [planAxis, hne, hcond]

/-! ## Lemmas about the 3-D plan -/

theorem mem_prod3 {zs ys xs : List Nat} {pl : Vec3} :
    pl ∈ prod3 zs ys xs ↔ pl.1 ∈ zs ∧ pl.2.1 ∈ ys ∧ pl.2.2 ∈ xs := by
  obtain ⟨z, y, x⟩ := pl
  simp only [prod3, List.mem_flatMap, List.mem_map, Prod.mk.injEq]
  constructor
  · rintro ⟨a, ha, b, hb, c, hc, h1, h2, h3⟩
    subst h1; subst h2; subst h3
    exact ⟨ha, hb, hc⟩
  · rintro ⟨ha, hb, hc⟩
    exact ⟨z, ha, y, hb, x, hc, rfl, rfl, rfl⟩

theorem planUnionOkb_eq_true_iff (pls : List Vec3) (ps sz : Vec3) :
    planUnionOkb pls ps sz = true ↔
      (((∀ x, x < sz.1 → ∃ pl ∈ pls, pl.1 ≤ x ∧ x < pl.1 + ps.1) ∧
          ∀ pl ∈ pls, pl.1 + ps.1 ≤ sz.1) ∧
        ((∀ x, x < sz.2.1 → ∃ pl ∈ pls, pl.2.1 ≤ x ∧ x < pl.2.1 + ps.2.1) ∧
          ∀ pl ∈ pls, pl.2.1 + ps.2.1 ≤ sz.2.1) ∧
        ((∀ x, x < sz.2.2 → ∃ pl ∈ pls, pl.2.2 ≤ x ∧ x < pl.2.2 + ps.2.2) ∧
          ∀ pl ∈ pls, pl.2.2 + ps.2.2 ≤ sz.2.2)) := by
  simp [planUnionOkb, List.all_eq_true, List.any_eq_true, List.mem_range,
    Bool.and_eq_true, decide_eq_true_eq, and_assoc]

theorem unionEq_of_planOk {pls : List Vec3} {ps sz : Vec3}
    (h : planUnionOkb pls ps sz = true) : UnionEq pls sz ps := by
  rw [planUnionOkb_eq_true_iff] at h
  obtain ⟨⟨hz1, hz2⟩, ⟨hy1, hy2⟩, ⟨hx1, hx2⟩⟩ := h
  refine ⟨fun x => ⟨hz1 x, ?_⟩, fun x => ⟨hy1 x, ?_⟩, fun x => ⟨hx1 x, ?_⟩⟩
  · rintro ⟨pl, hpl, hle, hlt⟩
    have := hz2 pl hpl
    omega
  · rintro ⟨pl, hpl, hle, hlt⟩
    have := hy2 pl hpl
    omega
  · rintro ⟨pl, hpl, hle, hlt⟩
    have := hx2 pl hpl
    omega

theorem planOk_of_axisOk {zs ys xs : List Nat} {ps sz : Vec3}
    (hz : AxisOk sz.1 ps.1 zs) (hy : AxisOk sz.2.1 ps.2.1 ys)
    (hx : AxisOk sz.2.2 ps.2.2 xs) :
    planUnionOkb (prod3 zs ys xs) ps sz = true := by
  obtain ⟨hzne, hzin, hzcov⟩ := hz
  obtain ⟨hyne, hyin, hycov⟩ := hy
  obtain ⟨hxne, hxin, hxcov⟩ := hx
  obtain ⟨y0, hy0⟩ := List.exists_mem_of_ne_nil _ hyne
  obtain ⟨x0, hx0⟩ := List.exists_mem_of_ne_nil _ hxne
  obtain ⟨z0, hz0⟩ := List.exists_mem_of_ne_nil _ hzne
  rw [planUnionOkb_eq_true_iff]
  refine ⟨⟨?_, ?_⟩, ⟨?_, ?_⟩, ⟨?_, ?_⟩⟩
  · intro x hxlt
    obtain ⟨st, hst, hle, hlt⟩ := hzcov x hxlt
    exact ⟨(st, y0, x0), mem_prod3.2 ⟨hst, hy0, hx0⟩, hle, hlt⟩
  · intro pl hpl
    exact hzin pl.1 (mem_prod3.1 hpl).1
  · intro x hxlt
    obtain ⟨st, hst, hle, hlt⟩ := hycov x hxlt
    exact ⟨(z0, st, x0), mem_prod3.2 ⟨hz0, hst, hx0⟩, hle, hlt⟩
  · intro pl hpl
    exact hyin pl.2.1 (mem_prod3.1 hpl).2.1
  · intro x hxlt
    obtain ⟨st, hst, hle, hlt⟩ := hxcov x hxlt
    exact ⟨(z0, y0, st), mem_prod3.2 ⟨hz0, hy0, hst⟩, hle, hlt⟩
  · intro pl hpl
    exact hxin pl.2.2 (mem_prod3.1 hpl).2.2

theorem plan_valid (cfg : PlanConfig) (hv : ValidConfig cfg) :
    ∃ zs ys xs, plan cfg = .ok (prod3 zs ys xs) ∧
      AxisOk cfg.size.1 cfg.patchSize.1 zs ∧
      AxisOk cfg.size.2.1 cfg.patchSize.2.1 ys ∧
      AxisOk cfg.size.2.2 cfg.patchSize.2.2 xs := by
  obtain ⟨hvz, hvy, hvx⟩ := hv
  obtain ⟨zs, hz, hzo⟩ := planAxis_valid _ _ _ _ hvz
  obtain ⟨ys, hy, hyo⟩ := planAxis_valid _ _ _ _ hvy
  obtain ⟨xs, hx, hxo⟩ := planAxis_valid _ _ _ _ hvx
  refine ⟨zs, ys, xs, ?_, hzo, hyo, hxo⟩
  unfold plan
  rw [hz, hy, hx]
  simp only [Bind.bind, Except.bind]
  rw [if_pos (planOk_of_axisOk hzo hyo hxo)]
  rfl

theorem plan_ok_inversion (cfg : PlanConfig) (pls : List Vec3)
    (h : plan cfg = .ok pls) : planUnionOkb pls cfg.patchSize cfg.size = true := by
  unfold plan at h
  cases hz : planAxis cfg.size.1 cfg.patchSize.1 cfg.overlap.1
      (cfg.patchNum.map fun v => v.1) with
  | error e => rw [hz] at h; simp [Bind.bind, Except.bind] at h
  | ok zs =>
    rw [hz] at h
    cases hy : planAxis cfg.size.2.1 cfg.patchSize.2.1 cfg.overlap.2.1
        (cfg.patchNum.map fun v => v.2.1) with
    | error e => rw [hy] at h; simp [Bind.bind, Except.bind] at h
    | ok ys =>
      rw [hy] at h
      cases hx : planAxis cfg.size.2.2 cfg.patchSize.2.2 cfg.overlap.2.2
          (cfg.patchNum.map fun v => v.2.2) with
      | error e => rw [hx] at h; simp [Bind.bind, Except.bind] at h
      | ok xs =>
        rw [hx] at h
        simp only [Bind.bind, Except.bind] at h
        by_cases hok : planUnionOkb (prod3 zs ys xs) cfg.patchSize cfg.size = true
        · rw [if_pos hok] at h
          have hpe : prod3 zs ys xs = pls := by
            simpa [pure, Except.pure] using h
          rw [← hpe]
          exact hok
        · rw [if_neg hok] at h
          simp at h

/-! ## Claim theorems for the grid planner -/

/-- C1: for every input size and every valid patch geometry (both size-driven
and explicit-count modes), the union of the covered ranges of all placements
returned by the grid planner equals the full input extent on every axis; and
whenever the planned axes do not satisfy this union property, planning fails
with a fatal `CoverageError` instead of returning the incomplete list. -/
theorem grid_planner_coverage :
    (∀ cfg : PlanConfig, ValidConfig cfg →
      ∃ pls, plan cfg = .ok pls ∧ UnionEq pls cfg.size cfg.patchSize) ∧
    (∀ (cfg : PlanConfig) (pls : List Vec3),
      plan cfg = .ok pls → UnionEq pls cfg.size cfg.patchSize) ∧
    (∀ (cfg : PlanConfig) (zs ys xs : List Nat),
      planAxis cfg.size.1 cfg.patchSize.1 cfg.overlap.1
          (cfg.patchNum.map fun v => v.1) = .ok zs →
      planAxis cfg.size.2.1 cfg.patchSize.2.1 cfg.overlap.2.1
          (cfg.patchNum.map fun v => v.2.1) = .ok ys →
      planAxis cfg.size.2.2 cfg.patchSize.2.2 cfg.overlap.2.2
          (cfg.patchNum.map fun v => v.2.2) = .ok xs →
      ¬ UnionEq (prod3 zs ys xs) cfg.size cfg.patchSize →
      plan cfg = .error .coverage) := by
  refine ⟨?_, ?_, ?_⟩
  · intro cfg hv
    obtain ⟨zs, ys, xs, hok, hzo, hyo, hxo⟩ := plan_valid cfg hv
    exact ⟨_, hok, unionEq_of_planOk (planOk_of_axisOk hzo hyo hxo)⟩
  · intro cfg pls h
    exact unionEq_of_planOk (plan_ok_inversion cfg pls h)
  · intro cfg zs ys xs hz hy hx hne
    have hok : ¬(planUnionOkb (prod3 zs ys xs) cfg.patchSize cfg.size = true) := by
      intro hcontra
      exact hne (unionEq_of_planOk hcontra)
    unfold plan
    rw [hz, hy, hx]
    simp only [Bind.bind, Except.bind]
    rw [if_neg hok]

theorem grid_planner_coverage_witness :
    ValidConfig ⟨(3, 3, 3), (2, 2, 2), (1, 1, 1), none⟩ ∧
      ∃ pls, plan ⟨(3, 3, 3), (2, 2, 2), (1, 1, 1), none⟩ = .ok pls ∧
        UnionEq pls (3, 3, 3) (2, 2, 2) :=
  ⟨by decide, grid_planner_coverage.1 ⟨(3, 3, 3), (2, 2, 2), (1, 1, 1), none⟩ (by decide)⟩

/-- C2: in size-driven mode, for every axis the planner computes a patch count
of `ceil((input_size − overlap) / (patch − overlap))` clamped to at least 1,
places the non-final patches at multiples of the stride `patch − overlap`, and
reduces the start of the final placement so that `start + patch ≤ input_size`,
for every input size including those that are not exact multiples of the
stride. -/
theorem size_driven_geometry (s ps ov : Nat) (hov : ov < ps) (hps : ps ≤ s) :
    planAxis s ps ov none = .ok (sizeDrivenStarts s ps ov) ∧
    (sizeDrivenStarts s ps ov).length
        = max 1 ((s - ov + (ps - ov) - 1) / (ps - ov)) ∧
    (∀ i, i + 1 < (sizeDrivenStarts s ps ov).length →
      (sizeDrivenStarts s ps ov).getD i 0 = i * (ps - ov)) ∧
    (sizeDrivenStarts s ps ov).getD ((sizeDrivenStarts s ps ov).length - 1) 0
        = s - ps ∧
    s - ps ≤ ((sizeDrivenStarts s ps ov).length - 1) * (ps - ov) ∧
    ∀ st ∈ sizeDrivenStarts s ps ov, st + ps ≤ s := by
  obtain ⟨h1, h2, h3⟩ := sizeDriven_key_bounds s ps ov hov hps
  have hpull := sizeDriven_pullback s ps ov hov hps
  have hlen : (sizeDrivenStarts s ps ov).length = sizeDrivenPatchNum s ps ov := by
    simp [sizeDrivenStarts]
  refine ⟨by simp [planAxis, hov], by rw [hlen]; rfl, ?_, ?_, ?_,
    sizeDriven_within s ps ov hov hps⟩
  · intro i hi
    rw [hlen] at hi
    unfold sizeDrivenStarts
    rw [getD_map_range _ i _ (by omega)]
    rw [if_neg (by omega)]
  · rw [hlen]
    unfold sizeDrivenStarts
    rw [getD_map_range _ _ _ (by omega)]
    rw [if_pos (by omega)]
    exact Nat.min_eq_right hpull
  · rw [hlen]
    exact hpull

theorem size_driven_geometry_witness :
    (2 < 10 ∧ 10 ≤ 20) ∧
      (sizeDrivenStarts 20 10 2).getD ((sizeDrivenStarts 20 10 2).length - 1) 0
        = 20 - 10 :=
  ⟨by decide, (size_driven_geometry 20 10 2 (by decide) (by decide)).2.2.2.1⟩

/-- C7: in explicit-count mode, for every axis with more than one patch the
planner uses the stride `(input_size − patch) / (patch_num − 1)`; an axis with
a single patch gets one centered placement; and planning fails with
`ConfigError` whenever the patch exceeds the input span on an axis with more
than one patch (the negative-stride case). -/
theorem explicit_count_geometry :
    (∀ s ps ov n, 1 < n → ps ≤ s →
      planAxis s ps ov (some n) = .ok (explicitStarts s ps n) ∧
      ∀ i, i < n →
        (explicitStarts s ps n).getD i 0 = i * ((s - ps) / (n - 1))) ∧
    (∀ s ps ov, planAxis s ps ov (some 1) = .ok [(s - ps) / 2]) ∧
    (∀ s ps ov n, 1 < n → s < ps →
      planAxis s ps ov (some n) = .error .config) := by
  refine ⟨?_, ?_, ?_⟩
  · intro s ps ov n hn hps
    have hne : ¬(n = 0) := by omega
    have hcond : ¬(1 < n ∧ s < ps) := by
      rintro ⟨_, hcon⟩
      omega
    refine ⟨by simp [planAxis, hne, hcond], ?_⟩
    intro i hi
    have hstarts : explicitStarts s ps n
        = (List.range n).map fun i => i * explicitStride s ps n := by
      unfold explicitStarts
      rw [if_neg (by omega : ¬n = 1)]
    rw [hstarts, getD_map_range n i _ hi]
    rfl
  · intro s ps ov
    simp [planAxis, explicitStarts]
  · intro s ps ov n hn hlt
    have hne : ¬(n = 0) := by omega
    simp [planAxis, hne, hn, hlt]

theorem explicit_count_geometry_witness :
    ((1 < 2 ∧ (5 : Nat) < 7) ∧ planAxis 5 7 0 (some 2) = .error .config) ∧
      planAxis 9 9 0 (some 1) = .ok [(9 - 9) / 2] :=
  ⟨⟨⟨by decide, by decide⟩,
      explicit_count_geometry.2.2 5 7 0 2 (by decide) (by decide)⟩,
    explicit_count_geometry.2.1 9 9 0⟩

/-! ## Claim theorems for the queue helpers -/

/-- C9: `SQSQueue.send_message_list` sends every message of the list exactly
once, in list order, partitioned into `send_message_batch` calls of at most 10
entries each, flushing any remainder smaller than 10 at the end so that the
pending entry list is empty when the operation returns. -/
theorem send_message_list_batches (msgs : List String) :
    (sendMessageList msgs).sentBatches.flatten = msgs.map toEntry ∧
    ((sendMessageList msgs).sentBatches.flatten.map fun e => e.messageBody) = msgs ∧
    (∀ b ∈ (sendMessageList msgs).sentBatches, 0 < b.length ∧ b.length ≤ 10) ∧
    (sendMessageList msgs).pending = [] := by
  obtain ⟨h1, h2, h3⟩ := sendFold_spec msgs ⟨[], []⟩ (by simp) (by simp)
  simp only [List.flatten_nil, List.nil_append] at h1
  have hbody : ∀ l : List SQSEntry, l = msgs.map toEntry →
      l.map (fun e => e.messageBody) = msgs := by
    intro l hl
    rw [hl, List.map_map]
    have : (fun e : SQSEntry => e.messageBody) ∘ toEntry = id := by
      funext m
      rfl
    rw [this, List.map_id]
  unfold sendMessageList
  by_cases hemp : (msgs.foldl sendStep ⟨[], []⟩).pending.isEmpty
  · rw [if_pos hemp]
    have hpe : (msgs.foldl sendStep ⟨[], []⟩).pending = [] :=
      List.isEmpty_iff.1 hemp
    rw [hpe, List.append_nil] at h1
    refine ⟨h1, hbody _ h1, ?_, hpe⟩
    intro b hb
    have := h3 b hb
    omega
  · rw [if_neg hemp]
    have hflat : (List.flatten ((msgs.foldl sendStep ⟨[], []⟩).sentBatches ++
        [(msgs.foldl sendStep ⟨[], []⟩).pending])) = msgs.map toEntry := by
      rw [List.flatten_append]
      simpa using h1
    refine ⟨hflat, hbody _ hflat, ?_, rfl⟩
    intro b hb
    simp only [List.mem_append, List.mem_singleton] at hb
    rcases hb with hb | hb
    · have := h3 b hb
      omega
    · have hnil : (msgs.foldl sendStep ⟨[], []⟩).pending ≠ [] := by
        intro hcon
        rw [hcon] at hemp
        simp at hemp
      have hpos : 0 < (msgs.foldl sendStep ⟨[], []⟩).pending.length :=
        List.length_pos.2 hnil
      rw [hb]
      omega

/-- C10: `fetch_task` yields at most `num` tasks when `num` is positive —
exactly the first `num` tasks of the run of successful fetches, stopping early
only when the queue returns an empty handle; for negative `num` the loop
condition `num != 0` never terminates on `num` alone, so it yields a task for
every successful fetch until the queue is exhausted; and every yielded task
carries the queue, the task handle, and the bounding box parsed from the
fetched message. -/
theorem fetch_task_characterization {Q B : Type} (q : Q) (parse : String → B)
    (num : Int) (rs : List (Option (String × String))) :
    (0 < num → fetchTask q parse num rs =
      ((leadingSomes rs).take num.toNat).map fun hs => ⟨q, hs.1, hs.2, parse hs.2⟩) ∧
    (0 < num → (fetchTask q parse num rs).length ≤ num.toNat) ∧
    (num < 0 → fetchTask q parse num rs =
      (leadingSomes rs).map fun hs => ⟨q, hs.1, hs.2, parse hs.2⟩) ∧
    (∀ t ∈ fetchTask q parse num rs,
      t.taskQueue = q ∧ t.bbox = parse t.bboxStr ∧
        some (t.handle, t.bboxStr) ∈ rs) := by
  refine ⟨fetchTask_pos q parse rs num, ?_, fetchTask_neg q parse rs num,
    fetchTask_mem q parse rs num⟩
  intro h
  rw [fetchTask_pos q parse rs num h]
  rw [List.length_map]
  have := List.length_take_le num.toNat (leadingSomes rs)
  omega

theorem fetch_task_characterization_witness :
    ((0 : Int) < 2 ∧
      fetchTask (0 : Nat) (fun s => s) 2 [some ( "handle-1" , "0-1_0-1_0-1" ), none]
        = [⟨0, "handle-1" , "0-1_0-1_0-1" , "0-1_0-1_0-1" ⟩]) := by
  constructor
  · decide
  · rw [(fetch_task_characterization (0 : Nat) (fun s => s) 2
      [some ( "handle-1" , "0-1_0-1_0-1" ), none]).1 (by decide)]
    rfl

/-! ## Lemmas about the bump weight generator -/

theorem init_le_foldl_max (l : List Nat) : ∀ a : Nat, a ≤ l.foldl max a := by
  induction l with
  | nil => intro a; exact le_refl a
  | cons b l ih =>
    intro a
    exact le_trans (Nat.le_max_left a b) (ih (max a b))

theorem le_foldl_max (l : List Nat) : ∀ (a x : Nat), x ∈ l → x ≤ l.foldl max a := by
  induction l with
  | nil => intro a x hx; simp at hx
  | cons b l ih =>
    intro a x hx
    rcases List.mem_cons.1 hx with hx | hx
    · subst hx
      exact le_trans (Nat.le_max_right a x) (init_le_foldl_max l (max a x))
    · exact ih (max a b) x hx

theorem foldl_max_mem (l : List Nat) : ∀ a : Nat,
    l.foldl max a = a ∨ l.foldl max a ∈ l := by
  induction l with
  | nil => intro a; exact Or.inl rfl
  | cons b l ih =>
    intro a
    rcases ih (max a b) with h | h
    · simp only [List.foldl_cons]
      rcases Nat.le_total a b with hab | hab
      · right
        rw [h, Nat.max_eq_right hab]
        exact List.mem_cons_self b l
      · left
        rw [h, Nat.max_eq_left hab]
    · exact Or.inr (List.mem_cons_of_mem b h)

theorem foldl_max_le (l : List Nat) : ∀ (a m : Nat), a ≤ m →
    (∀ x ∈ l, x ≤ m) → l.foldl max a ≤ m := by
  induction l with
  | nil => intro a m ha _; exact ha
  | cons b l ih =>
    intro a m ha h
    refine ih (max a b) m ?_ fun x hx => h x (List.mem_cons_of_mem b hx)
    exact Nat.max_le.2 ⟨ha, h b (List.mem_cons_self b l)⟩

theorem bumpRaw_pos (n i : Nat) (hi : i < n) : 1 ≤ bumpRaw n i := by
  unfold bumpRaw
  have h1 : 1 ≤ 2 * i + 1 := by omega
  have h2 : 1 ≤ 2 * (n - i) - 1 := by omega
  simpa using Nat.mul_le_mul h1 h2

theorem bumpRaw_le_bumpMax (n i : Nat) (hi : i < n) : bumpRaw n i ≤ bumpMax n :=
  le_foldl_max _ 0 _ (List.mem_map_of_mem _ (List.mem_range.2 hi))

theorem bumpMax_pos (n : Nat) (hn : 0 < n) : 1 ≤ bumpMax n :=
  le_trans (bumpRaw_pos n 0 hn) (bumpRaw_le_bumpMax n 0 hn)

theorem bumpMax_le (n : Nat) : bumpMax n ≤ 4 * n * n := by
  refine foldl_max_le _ 0 _ (Nat.zero_le _) ?_
  intro x hx
  simp only [List.mem_map, List.mem_range] at hx
  obtain ⟨i, hi, rfl⟩ := hx
  unfold bumpRaw
  have h1 : 2 * i + 1 ≤ 2 * n := by omega
  have h2 : 2 * (n - i) - 1 ≤ 2 * n := by omega
  calc (2 * i + 1) * (2 * (n - i) - 1) ≤ (2 * n) * (2 * n) := Nat.mul_le_mul h1 h2
    _ = 4 * n * n := by ring

theorem bumpMax_cast_pos (n : Nat) (hn : 0 < n) : (0 : ℚ) < (bumpMax n : ℚ) := by
  have := bumpMax_pos n hn
  exact_mod_cast Nat.lt_of_lt_of_le Nat.zero_lt_one this

theorem bumpCurve_pos (n i : Nat) (hi : i < n) : 0 < bumpCurve n i := by
  unfold bumpCurve
  apply div_pos
  · have := bumpRaw_pos n i hi
    exact_mod_cast Nat.lt_of_lt_of_le Nat.zero_lt_one this
  · exact bumpMax_cast_pos n (by omega)

theorem bumpCurve_le_one (n i : Nat) (hi : i < n) : bumpCurve n i ≤ 1 := by
  unfold bumpCurve
  rw [div_le_one (bumpMax_cast_pos n (by omega))]
  exact_mod_cast bumpRaw_le_bumpMax n i hi

theorem bumpCurve_lower (n i : Nat) (hi : i < n) :
    1 / (bumpMax n : ℚ) ≤ bumpCurve n i := by
  unfold bumpCurve
  rw [div_le_div_iff_of_pos_right (bumpMax_cast_pos n (by omega))]
  exact_mod_cast bumpRaw_pos n i hi

theorem bumpCurve_max_attained (n : Nat) (hn : 0 < n) :
    ∃ i, i < n ∧ bumpCurve n i = 1 := by
  rcases foldl_max_mem ((List.range n).map (bumpRaw n)) 0 with h | h
  · have := bumpMax_pos n hn
    unfold bumpMax at this
    omega
  · simp only [List.mem_map, List.mem_range] at h
    obtain ⟨i, hi, hval⟩ := h
    refine ⟨i, hi, ?_⟩
    unfold bumpCurve
    have hmax : (bumpRaw n i : ℚ) = (bumpMax n : ℚ) := by
      exact_mod_cast congrArg (Nat.cast : Nat → ℚ) hval
    rw [hmax]
    exact div_self (ne_of_gt (bumpMax_cast_pos n hn))

theorem bumpCurve_len_one : bumpCurve 1 0 = 1 := by
  have h1 : bumpRaw 1 0 = 1 := rfl
  have h2 : bumpMax 1 = 1 := rfl
  unfold bumpCurve
  rw [h1, h2]
  norm_num

/-- C8: the bump weight field is the outer product of per-axis 1-D curves;
each curve is strictly positive inside the axis extent (in particular non-zero
at the two end samples), its maximum is normalized to 1, and an axis of
length 1 yields weight exactly 1 at its only position. -/
theorem bump_weight_properties :
    (∀ ps p : Vec3, bumpField ps p
        = bumpCurve ps.1 p.1 * bumpCurve ps.2.1 p.2.1 * bumpCurve ps.2.2 p.2.2) ∧
    (∀ n, 0 < n →
      (∀ i, i < n → 0 < bumpCurve n i) ∧
      (∀ i, i < n → bumpCurve n i ≤ 1) ∧
      (∃ i, i < n ∧ bumpCurve n i = 1) ∧
      bumpCurve n 0 ≠ 0 ∧ bumpCurve n (n - 1) ≠ 0) ∧
    bumpCurve 1 0 = 1 := by
  refine ⟨fun ps p => rfl, ?_, bumpCurve_len_one⟩
  intro n hn
  exact ⟨fun i hi => bumpCurve_pos n i hi, fun i hi => bumpCurve_le_one n i hi,
    bumpCurve_max_attained n hn, ne_of_gt (bumpCurve_pos n 0 hn),
    ne_of_gt (bumpCurve_pos n (n - 1) (by omega))⟩

theorem bump_weight_properties_witness :
    (0 : Nat) < 4 ∧ 0 < bumpCurve 4 2 ∧ bumpCurve 1 0 = 1 :=
  ⟨by decide, (bump_weight_properties.2.1 4 (by decide)).1 2 (by decide),
    bump_weight_properties.2.2⟩

/-! ## Lemmas about batching and the accumulator -/

theorem chunksOf_flatten_aux (n : Nat) :
    ∀ (k : Nat) (l : List α), l.length ≤ k → (chunksOf n l).flatten = l := by
  intro k
  induction k with
  | zero =>
    intro l hl
    have hnil : l = [] := List.eq_nil_of_length_eq_zero (by omega)
    subst hnil
    simp [chunksOf]
  | succ k ih =>
    intro l hl
    cases l with
    | nil => simp [chunksOf]
    | cons a l =>
      simp only [chunksOf, List.flatten_cons]
      rw [ih (l.drop (n - 1)) (by simp only [List.length_drop]; simp at hl; omega)]
      simp only [List.cons_append]
      rw [List.take_append_drop]

theorem chunksOf_flatten (n : Nat) (l : List α) : (chunksOf n l).flatten = l :=
  chunksOf_flatten_aux n l.length l (le_refl _)

theorem foldl_flatten_eq (f : β → α → β) :
    ∀ (L : List (List α)) (b : β),
      L.flatten.foldl f b = L.foldl (fun acc bl => bl.foldl f acc) b := by
  intro L
  induction L with
  | nil => intro b; rfl
  | cons bl L ih =>
    intro b
    simp only [List.flatten_cons, List.foldl_append, List.foldl_cons]
    rw [ih]

theorem depositBatched_eq (batchSize : Nat) (ps : Vec3)
    (tf : Vec3 → Nat → Vec3 → ℚ) (pls : List Vec3) (b : Buffers) :
    depositBatched batchSize ps tf pls b = depositAll ps tf pls b := by
  unfold depositBatched depositAll
  rw [← foldl_flatten_eq]
  rw [chunksOf_flatten]

theorem depositAll_weight (ps : Vec3) (tf : Vec3 → Nat → Vec3 → ℚ) :
    ∀ (pls : List Vec3) (b : Buffers) (p : Vec3),
      (depositAll ps tf pls b).weightAcc p = b.weightAcc p + wsumList ps pls p := by
  intro pls
  induction pls with
  | nil => intro b p; simp [depositAll, wsumList]
  | cons st pls ih =>
    intro b p
    have hstep : depositAll ps tf (st :: pls) b
        = depositAll ps tf pls (deposit ps st (tf st) b) := rfl
    rw [hstep, ih]
    simp only [deposit]
    unfold wsumList
    simp only [List.map_cons, List.sum_cons]
    ring

theorem add3_sub3 {st ps p : Vec3} (h : coversb st ps p = true) :
    add3 st (sub3 p st) = p := by
  obtain ⟨a, b, c⟩ := st
  obtain ⟨x, y, z⟩ := p
  simp only [coversb, Bool.and_eq_true, decide_eq_true_eq] at h
  simp only [add3, sub3, Prod.mk.injEq]
  refine ⟨by omega, by omega, by omega⟩

theorem coversb_sub_lt {st ps p : Vec3} (h : coversb st ps p = true) :
    (sub3 p st).1 < ps.1 ∧ (sub3 p st).2.1 < ps.2.1 ∧ (sub3 p st).2.2 < ps.2.2 := by
  obtain ⟨a, b, c⟩ := st
  obtain ⟨x, y, z⟩ := p
  simp only [coversb, Bool.and_eq_true, decide_eq_true_eq] at h
  simp only [sub3]
  refine ⟨by omega, by omega, by omega⟩

theorem depositAll_data_identity (ps : Vec3) (v : Vec3 → ℚ) :
    ∀ (pls : List Vec3) (b : Buffers) (c : Nat) (p : Vec3),
      (depositAll ps (tfIdentity v) pls b).dataAcc c p
        = b.dataAcc c p + v p * wsumList ps pls p := by
  intro pls
  induction pls with
  | nil => intro b c p; simp [depositAll, wsumList]
  | cons st pls ih =>
    intro b c p
    have hstep : depositAll ps (tfIdentity v) (st :: pls) b
        = depositAll ps (tfIdentity v) pls (deposit ps st (tfIdentity v st) b) := rfl
    rw [hstep, ih]
    simp only [deposit]
    unfold wsumList
    simp only [List.map_cons, List.sum_cons]
    by_cases hcov : coversb st ps p = true
    · rw [if_pos hcov, if_pos hcov]
      have hv : tfIdentity v st c (sub3 p st) = v p := by
        unfold tfIdentity
        rw [add3_sub3 hcov]
      rw [hv]
      ring
    · rw [if_neg hcov, if_neg hcov]
      ring

theorem bumpField_pos {ps q : Vec3} (h1 : q.1 < ps.1) (h2 : q.2.1 < ps.2.1)
    (h3 : q.2.2 < ps.2.2) : 0 < bumpField ps q := by
  unfold bumpField
  exact mul_pos (mul_pos (bumpCurve_pos _ _ h1) (bumpCurve_pos _ _ h2))
    (bumpCurve_pos _ _ h3)

theorem wsumList_lower (ps : Vec3) (pls : List Vec3) (p pl : Vec3)
    (hmem : pl ∈ pls) (hcov : coversb pl ps p = true) :
    bumpField ps (sub3 p pl) ≤ wsumList ps pls p := by
  unfold wsumList
  have hterm : (if coversb pl ps p then bumpField ps (sub3 p pl) else 0)
      ∈ pls.map fun st => if coversb st ps p then bumpField ps (sub3 p st) else 0 :=
    List.mem_map_of_mem _ hmem
  rw [if_pos hcov] at hterm
  refine List.single_le_sum ?_ _ hterm
  intro x hx
  simp only [List.mem_map] at hx
  obtain ⟨st, hst, rfl⟩ := hx
  by_cases hc : coversb st ps p = true
  · rw [if_pos hc]
    obtain ⟨l1, l2, l3⟩ := coversb_sub_lt hc
    exact le_of_lt (bumpField_pos l1 l2 l3)
  · rw [if_neg hc]

theorem allWeightedb_iff (w : Vec3 → ℚ) (sz : Vec3) :
    allWeightedb w sz = true ↔
      ∀ p : Vec3, p.1 < sz.1 → p.2.1 < sz.2.1 → p.2.2 < sz.2.2 → w p ≠ 0 := by
  unfold allWeightedb
  simp only [List.all_eq_true, List.mem_range, decide_eq_true_eq]
  constructor
  · rintro h ⟨z, y, x⟩ hz hy hx
    exact h z hz y hy x hx
  · intro h z hz y hy x hx
    exact h (z, y, x) hz hy hx

/-! ## Claim theorems for the accumulator and the engine modes -/

/-- C4: `finalize`, applied to the accumulated buffers, returns the volume
computed as `weighted_sum / max(weight_sum, epsilon)` element-wise, and raises
`CoverageError` whenever some position of the output extent has weight sum
exactly zero (a never-covered position), instead of silently returning zero
there. -/
theorem finalize_characterization (channels : Nat) (sz : Vec3) (b : Buffers) :
    ((∀ p : Vec3, p.1 < sz.1 → p.2.1 < sz.2.1 → p.2.2 < sz.2.2 →
        b.weightAcc p ≠ 0) →
      finalize channels sz b = .ok ⟨channels, sz,
        fun c p => b.dataAcc c p / max (b.weightAcc p) epsilon⟩) ∧
    ((∃ p : Vec3, p.1 < sz.1 ∧ p.2.1 < sz.2.1 ∧ p.2.2 < sz.2.2 ∧
        b.weightAcc p = 0) →
      finalize channels sz b = .error .coverage) := by
  constructor
  · intro h
    unfold finalize
    rw [if_pos ((allWeightedb_iff _ _).2 h)]
  · rintro ⟨p, h1, h2, h3, h4⟩
    have hfalse : ¬(allWeightedb b.weightAcc sz = true) := by
      intro hcon
      exact (allWeightedb_iff _ _).1 hcon p h1 h2 h3 h4
    unfold finalize
    rw [if_neg hfalse]

theorem finalize_characterization_witness :
    ((0 : Nat) < 1 ∧ Buffers.init.weightAcc (0, 0, 0) = 0) ∧
      finalize 1 (1, 1, 1) Buffers.init = .error .coverage :=
  ⟨⟨by decide, rfl⟩,
    (finalize_characterization 1 (1, 1, 1) Buffers.init).2
      ⟨(0, 0, 0), by decide, by decide, by decide, rfl⟩⟩

theorem wholeChunkBuffers_eq (sz : Vec3) (tf : Vec3 → Nat → Vec3 → ℚ) :
    wholeChunkBuffers sz tf = depositUniform sz (0, 0, 0) (tf (0, 0, 0)) Buffers.init := by
  unfold wholeChunkBuffers
  have hch : chunksOf 1 [((0, 0, 0) : Vec3)] = [[(0, 0, 0)]] := by
    simp [chunksOf]
  rw [hch]
  rfl

theorem coversb_origin {sz p : Vec3} (h1 : p.1 < sz.1) (h2 : p.2.1 < sz.2.1)
    (h3 : p.2.2 < sz.2.2) : coversb (0, 0, 0) sz p = true := by
  simp only [coversb, Bool.and_eq_true, decide_eq_true_eq]
  refine ⟨⟨⟨⟨⟨by omega, by omega⟩, by omega⟩, by omega⟩, by omega⟩, by omega⟩

/-- C5: with the whole-chunk ("mask output chunk") mode and the identity
transform, the engine output equals the input exactly: the grid planner is
bypassed (the whole input is the single placement at the origin), the batch
scheduler runs exactly one batch of size 1, and normalization divides by a
uniform weight of 1. -/
theorem whole_chunk_identity (sz : Vec3) (v : Vec3 → ℚ) (channels : Nat) :
    (∀ c p, p.1 < sz.1 → p.2.1 < sz.2.1 → p.2.2 < sz.2.2 →
      (runWholeChunk sz channels (tfIdentity v)).data c p = v p) ∧
    (runWholeChunk sz channels (tfIdentity v)).channels = channels ∧
    (runWholeChunk sz channels (tfIdentity v)).size = sz ∧
    chunksOf 1 [((0, 0, 0) : Vec3)] = [[(0, 0, 0)]] ∧
    (∀ p, p.1 < sz.1 → p.2.1 < sz.2.1 → p.2.2 < sz.2.2 →
      (wholeChunkBuffers sz (tfIdentity v)).weightAcc p = 1) := by
  have hbuf := wholeChunkBuffers_eq sz (tfIdentity v)
  have hweight : ∀ p : Vec3, p.1 < sz.1 → p.2.1 < sz.2.1 → p.2.2 < sz.2.2 →
      (wholeChunkBuffers sz (tfIdentity v)).weightAcc p = 1 := by
    intro p h1 h2 h3
    rw [hbuf]
    simp only [depositUniform, Buffers.init]
    rw [if_pos (coversb_origin h1 h2 h3)]
    norm_num
  refine ⟨?_, rfl, rfl, by simp [chunksOf], hweight⟩
  intro c p h1 h2 h3
  show (wholeChunkBuffers sz (tfIdentity v)).dataAcc c p /
      max ((wholeChunkBuffers sz (tfIdentity v)).weightAcc p) epsilon = v p
  rw [hweight p h1 h2 h3, hbuf]
  simp only [depositUniform, Buffers.init]
  rw [if_pos (coversb_origin h1 h2 h3)]
  have hmax : max (1 : ℚ) epsilon = 1 := by
    rw [max_eq_left]
    unfold epsilon
    norm_num
  rw [hmax]
  have hid : tfIdentity v (0, 0, 0) c (sub3 p (0, 0, 0)) = v p := by
    unfold tfIdentity
    rw [add3_sub3 (coversb_origin h1 h2 h3)]
  rw [hid]
  norm_num

theorem whole_chunk_identity_witness :
    (0 : Nat) < 1 ∧
      (runWholeChunk (1, 1, 1) 1 (tfIdentity fun _ => (3 : ℚ))).data 0 (0, 0, 0) = 3 :=
  ⟨by decide,
    (whole_chunk_identity (1, 1, 1) (fun _ => (3 : ℚ)) 1).1 0 (0, 0, 0)
      (by decide) (by decide) (by decide)⟩

theorem Buffers.eq_of_fields {b1 b2 : Buffers} (h1 : b1.dataAcc = b2.dataAcc)
    (h2 : b1.weightAcc = b2.weightAcc) : b1 = b2 := by
  cases b1
  cases b2
  simp only at h1 h2
  rw [h1, h2]

/-- C6: for a fixed input and configuration, the finalized engine output is
independent of batch grouping and deposit order: running with any `batchSize`
equals running with batch size 1, because batching only regroups the deposit
fold, and two consecutive deposits commute (deposit is an element-wise
add). -/
theorem batch_size_invariance (batchSize : Nat) (cfg : PlanConfig)
    (channels : Nat) (tf : Vec3 → Nat → Vec3 → ℚ) :
    runTiled batchSize cfg channels tf = runTiled 1 cfg channels tf ∧
    ∀ (st1 st2 : Vec3) (pa pb : Nat → Vec3 → ℚ) (b : Buffers),
      deposit cfg.patchSize st2 pb (deposit cfg.patchSize st1 pa b)
        = deposit cfg.patchSize st1 pa (deposit cfg.patchSize st2 pb b) := by
  constructor
  · unfold runTiled
    cases hp : plan cfg with
    | error e => rfl
    | ok pls =>
      show finalize channels cfg.size
          (depositBatched batchSize cfg.patchSize tf pls .init)
        = finalize channels cfg.size
            (depositBatched 1 cfg.patchSize tf pls .init)
      rw [depositBatched_eq, depositBatched_eq]
  · intro st1 st2 pa pb b
    refine Buffers.eq_of_fields ?_ ?_
    · funext c p
      simp only [deposit]
      ring
    · funext p
      simp only [deposit]
      ring

/-! ## The concrete scenario -/

theorem bumpField_lower {ps q : Vec3} (h1 : q.1 < ps.1) (h2 : q.2.1 < ps.2.1)
    (h3 : q.2.2 < ps.2.2) :
    1 / ((bumpMax ps.1 : ℚ) * (bumpMax ps.2.1 : ℚ) * (bumpMax ps.2.2 : ℚ))
      ≤ bumpField ps q := by
  unfold bumpField
  have hA := bumpCurve_lower ps.1 q.1 h1
  have hB := bumpCurve_lower ps.2.1 q.2.1 h2
  have hC := bumpCurve_lower ps.2.2 q.2.2 h3
  have c1 := bumpCurve_pos ps.1 q.1 h1
  have c2 := bumpCurve_pos ps.2.1 q.2.1 h2
  have p2 : (0 : ℚ) ≤ 1 / (bumpMax ps.2.1 : ℚ) := by positivity
  have p3 : (0 : ℚ) ≤ 1 / (bumpMax ps.2.2 : ℚ) := by positivity
  have he : (1 : ℚ) /
      ((bumpMax ps.1 : ℚ) * (bumpMax ps.2.1 : ℚ) * (bumpMax ps.2.2 : ℚ))
      = 1 / (bumpMax ps.1 : ℚ) * (1 / (bumpMax ps.2.1 : ℚ)) *
          (1 / (bumpMax ps.2.2 : ℚ)) := by
    rw [div_mul_div_comm, div_mul_div_comm]
    norm_num
  rw [he]
  have h12 : 1 / (bumpMax ps.1 : ℚ) * (1 / (bumpMax ps.2.1 : ℚ))
      ≤ bumpCurve ps.1 q.1 * bumpCurve ps.2.1 q.2.1 :=
    mul_le_mul hA hB p2 (le_of_lt c1)
  exact mul_le_mul h12 hC p3 (mul_nonneg (le_of_lt c1) (le_of_lt c2))

theorem scenario_bump_lower {q : Vec3} (h1 : q.1 < 10) (h2 : q.2.1 < 128)
    (h3 : q.2.2 < 128) : epsilon ≤ bumpField (10, 128, 128) q := by
  refine le_trans ?_ (@bumpField_lower (10, 128, 128) q h1 h2 h3)
  show epsilon ≤ 1 / ((bumpMax 10 : ℚ) * (bumpMax 128 : ℚ) * (bumpMax 128 : ℚ))
  have hM1 : (bumpMax 10 : ℚ) ≤ 400 := by
    have h4 : bumpMax 10 ≤ 400 := le_trans (bumpMax_le 10) (by norm_num)
    exact_mod_cast h4
  have hM2 : (bumpMax 128 : ℚ) ≤ 65536 := by
    have h4 : bumpMax 128 ≤ 65536 := le_trans (bumpMax_le 128) (by norm_num)
    exact_mod_cast h4
  have hp1 : (0 : ℚ) < (bumpMax 10 : ℚ) := bumpMax_cast_pos 10 (by norm_num)
  have hp2 : (0 : ℚ) < (bumpMax 128 : ℚ) := bumpMax_cast_pos 128 (by norm_num)
  have hprod : (bumpMax 10 : ℚ) * (bumpMax 128 : ℚ) * (bumpMax 128 : ℚ)
      ≤ 400 * 65536 * 65536 := by
    have ha : (bumpMax 10 : ℚ) * (bumpMax 128 : ℚ) ≤ 400 * 65536 :=
      mul_le_mul hM1 hM2 (le_of_lt hp2) (by norm_num)
    exact mul_le_mul ha hM2 (le_of_lt hp2) (by norm_num)
  unfold epsilon
  rw [div_le_div_iff₀ (by norm_num) (mul_pos (mul_pos hp1 hp2) hp2)]
  rw [one_mul, one_mul]
  linarith

/-- C3: running the engine with the identity transform on an input of shape
`(18,224,224)` with output patch size `(10,128,128)`, overlap `(2,32,32)` and
one output channel returns an output of shape `(1,18,224,224)` whose values,
on the region remaining after discarding a border of width `(2,32,32)`, equal
the input rescaled to `[0,1]` within `1/255` (here: exactly). -/
theorem identity_concrete_scenario (inp : Vec3 → Nat) :
    ∃ out, runTiled 1 scenarioConfig 1 (tfIdentity (rescale255 inp)) = .ok out ∧
      out.channels = 1 ∧ out.size = (18, 224, 224) ∧
      ∀ c p, c < 1 → 2 ≤ p.1 → p.1 < 16 → 32 ≤ p.2.1 → p.2.1 < 192 →
        32 ≤ p.2.2 → p.2.2 < 192 →
        |out.data c p - (inp p : ℚ) / 255| ≤ 1 / 255 := by
  obtain ⟨zs, ys, xs, hok, hzo, hyo, hxo⟩ := plan_valid scenarioConfig (by decide)
  set pls := prod3 zs ys xs with hpls
  have hcover : ∀ p : Vec3, p.1 < 18 → p.2.1 < 224 → p.2.2 < 224 →
      ∃ pl ∈ pls, coversb pl (10, 128, 128) p = true := by
    intro p h1 h2 h3
    obtain ⟨stz, hm1, hle1, hlt1⟩ := hzo.2.2 p.1 h1
    obtain ⟨sty, hm2, hle2, hlt2⟩ := hyo.2.2 p.2.1 h2
    obtain ⟨stx, hm3, hle3, hlt3⟩ := hxo.2.2 p.2.2 h3
    refine ⟨(stz, sty, stx), mem_prod3.2 ⟨hm1, hm2, hm3⟩, ?_⟩
    simp only [coversb, Bool.and_eq_true, decide_eq_true_eq]
    exact ⟨⟨⟨⟨⟨hle1, hlt1⟩, hle2⟩, hlt2⟩, hle3⟩, hlt3⟩
  have hwlow : ∀ p : Vec3, p.1 < 18 → p.2.1 < 224 → p.2.2 < 224 →
      epsilon ≤ wsumList (10, 128, 128) pls p := by
    intro p h1 h2 h3
    obtain ⟨pl, hmem, hcov⟩ := hcover p h1 h2 h3
    refine le_trans ?_ (wsumList_lower _ _ _ _ hmem hcov)
    obtain ⟨l1, l2, l3⟩ := coversb_sub_lt hcov
    exact scenario_bump_lower l1 l2 l3
  have heps : (0 : ℚ) < epsilon := by
    unfold epsilon
    norm_num
  set B := depositAll (10, 128, 128) (tfIdentity (rescale255 inp)) pls
    Buffers.init with hB
  have hBw : ∀ p, B.weightAcc p = wsumList (10, 128, 128) pls p := by
    intro p
    rw [hB, depositAll_weight]
    simp [Buffers.init]
  have hBd : ∀ c p, B.dataAcc c p
      = rescale255 inp p * wsumList (10, 128, 128) pls p := by
    intro c p
    rw [hB, depositAll_data_identity]
    simp [Buffers.init]
  have hrun : runTiled 1 scenarioConfig 1 (tfIdentity (rescale255 inp))
      = finalize 1 (18, 224, 224) B := by
    unfold runTiled
    rw [hok]
    show finalize 1 (18, 224, 224)
        (depositBatched 1 (10, 128, 128) (tfIdentity (rescale255 inp)) pls
          Buffers.init)
      = finalize 1 (18, 224, 224) B
    rw [depositBatched_eq, hB]
  have hfin : finalize 1 (18, 224, 224) B = .ok ⟨1, (18, 224, 224),
      fun c p => B.dataAcc c p / max (B.weightAcc p) epsilon⟩ := by
    unfold finalize
    rw [if_pos]
    rw [allWeightedb_iff]
    intro p h1 h2 h3
    rw [hBw]
    exact ne_of_gt (lt_of_lt_of_le heps (hwlow p h1 h2 h3))
  refine ⟨⟨1, (18, 224, 224),
      fun c p => B.dataAcc c p / max (B.weightAcc p) epsilon⟩,
    by rw [hrun]; exact hfin, rfl, rfl, ?_⟩
  intro c p hc h1 h2 h3 h4 h5 h6
  have hp1 : p.1 < 18 := by omega
  have hp2 : p.2.1 < 224 := by omega
  have hp3 : p.2.2 < 224 := by omega
  have hw := hwlow p hp1 hp2 hp3
  have hne : wsumList (10, 128, 128) pls p ≠ 0 :=
    ne_of_gt (lt_of_lt_of_le heps hw)
  have hmax : max (B.weightAcc p) epsilon = B.weightAcc p := by
    apply max_eq_left
    rw [hBw]
    exact hw
  show |B.dataAcc c p / max (B.weightAcc p) epsilon - (inp p : ℚ) / 255| ≤ 1 / 255
  rw [hmax, hBd, hBw, mul_div_assoc, div_self hne, mul_one]
  unfold rescale255
  rw [sub_self, abs_zero]
  norm_num

theorem identity_concrete_scenario_witness :
    ∃ out, runTiled 1 scenarioConfig 1 (tfIdentity (rescale255 fun _ => 7))
        = .ok out ∧
      out.channels = 1 ∧ out.size = (18, 224, 224) ∧
      |out.data 0 (5, 50, 60) - ((7 : Nat) : ℚ) / 255| ≤ 1 / 255 := by
  obtain ⟨out, ho, hc, hs, hv⟩ := identity_concrete_scenario fun _ => 7
  exact ⟨out, ho, hc, hs,
    hv 0 (5, 50, 60) (by decide) (by decide) (by decide) (by decide) (by decide)
      (by decide) (by decide)⟩

end Chunkflow
